import Mathlib

/-
Verification of the sepmd Markdown splitter and tiered copy protocol.

The development shallowly embeds the core functions of the repository:

* src/src/main.tsx : tokenize, trimEmptyJoin, toSegments, segmentToMarkdown
* src/unnamed/part_000 : smartCopy, copyWithExecCommand

Strings are embedded as lists of characters; one JavaScript line is one
list of characters that contains no newline.  The JavaScript regular
expressions used by the tokenizer are translated into explicit character
scans that implement exactly the matches the source regexes perform.
The DOM and clipboard primitives touched by the copy protocol are foreign
calls; they are modelled by an environment record that fixes the outcome
of each primitive (success, reported failure, or a thrown exception), and
the document is modelled by the number of transient textarea elements
currently attached.
-/

namespace Sepmd

/-- Strings of the embedded program: a list of characters. -/
abbrev Str := List Char

/-- Conversion from Lean string literals to the embedded string type. -/
def str (s : String) : Str := s.data

/-- The backtick character (code point 96), written via its code point. -/
def bt : Char := Char.ofNat 96

/-- JavaScript regex whitespace class for the character sets used here:
space, tab, newline, carriage return, vertical tab and form feed. -/
def isWS (c : Char) : Bool :=
  c == ' ' || c == '\t' || c == '\n' || c == '\r' || c == '\x0b' || c == '\x0c'

/-- JavaScript String.trim: drop whitespace from both ends. -/
def jsTrim (s : Str) : Str :=
  ((s.dropWhile isWS).reverse.dropWhile isWS).reverse

/-- Embeds md.replace of the pattern carriage-return optional-newline by a
single newline, the line-ending normalization done by tokenize. -/
def normNL : Str → Str
  | [] => []
  | '\r' :: '\n' :: rest => '\n' :: normNL rest
  | '\r' :: rest => '\n' :: normNL rest
  | c :: rest => c :: normNL rest

/-- JavaScript split on the newline character: keeps empty segments and
yields one empty segment on empty input. -/
def splitNL : Str → List Str
  | [] => [[]]
  | c :: rest =>
    if c = '\n' then [] :: splitNL rest
    else
      match splitNL rest with
      | [] => [[c]]
      | l :: ls => (c :: l) :: ls

/-- Array.join with a newline separator, as used on the line buffers. -/
def joinNL : List Str → Str
  | [] => []
  | [l] => l
  | l :: ls => l ++ '\n' :: joinNL ls

/-- Scanner behind the leading replace of trimEmptyJoin.  The regex
anchored at the start, whitespace-star newline-plus, removes the prefix up
to and including the last newline inside the leading whitespace run; the
accumulator holds the suffix that remains if the scan stops now. -/
def slAux : Str → Str → Str
  | acc, [] => acc
  | acc, c :: rest =>
    if c = '\n' then slAux rest rest
    else if isWS c then slAux acc rest
    else acc

/-- First replace of trimEmptyJoin: strip the leading whitespace run up to
and including its last newline. -/
def stripLeading (s : Str) : Str := slAux s s

/-- Third replace of trimEmptyJoin: newline-plus whitespace-star anchored
at the end, removed.  This deletes the suffix that starts at the first
newline after which only whitespace follows; by reversal it is the same
scan as the leading strip. -/
def stripTrailing (s : Str) : Str := (slAux s.reverse s.reverse).reverse

/-- Replacement text for a run of newlines under the middle replace of
trimEmptyJoin: runs of three or more newlines become exactly two. -/
def nlEmit (k : Nat) : Str :=
  if 3 ≤ k then ['\n', '\n'] else List.replicate k '\n'

/-- Scanner for the middle replace of trimEmptyJoin, carrying the length
of the pending newline run. -/
def collapseGo : Nat → Str → Str
  | k, [] => nlEmit k
  | k, c :: rest =>
    if c = '\n' then collapseGo (k + 1) rest
    else nlEmit k ++ c :: collapseGo 0 rest

/-- Second replace of trimEmptyJoin: collapse every run of three or more
newlines to exactly two newlines. -/
def collapseNL (s : Str) : Str := collapseGo 0 s

/-- The three replaces of trimEmptyJoin applied, in source order, to the
already-joined string. -/
def normStr (s : Str) : Str :=
  stripTrailing (collapseNL (stripLeading s))

/-- Embeds trimEmptyJoin of main.tsx: join the buffered lines with
newlines, then apply the three replaces in source order. -/
def trimEmptyJoin (lines : List Str) : Str :=
  normStr (joinNL lines)

/-- Token type of the tokenizer (type Part of main.tsx). -/
inductive Part where
  | heading (level : Nat) (text : Str)
  | text (text : Str)
  | code (lang : Option Str) (code : Str)
deriving DecidableEq

/-- Embeds flushText of tokenize: a nonempty buffer whose normalization is
nonempty is emitted as one text token, otherwise nothing. -/
def flushText (buf : List Str) : List Part :=
  if buf.isEmpty then []
  else if (trimEmptyJoin buf).isEmpty then []
  else [Part.text (trimEmptyJoin buf)]

/-- Test of the openFence regex: optional leading whitespace followed by
three backticks, the rest of the line unconstrained. -/
def openFenceTest (l : Str) : Bool :=
  decide ((l.dropWhile isWS).take 3 = str "```")

/-- Capture of the openFence regex, trimmed, with the empty result mapped
to absence, as in the source expression for codeLang. -/
def fenceLang (l : Str) : Option Str :=
  if (jsTrim ((l.dropWhile isWS).drop 3)).isEmpty then none
  else some (jsTrim ((l.dropWhile isWS).drop 3))

/-- Test of the closeFence regex: optional whitespace, three backticks,
then only whitespace to the end of the line. -/
def closeFenceTest (l : Str) : Bool :=
  openFenceTest l && ((l.dropWhile isWS).drop 3).all isWS

/-- Whether a string starts with a whitespace character. -/
def headIsWS : Str → Bool
  | [] => false
  | c :: _ => isWS c

/-- Match of the heading regex: one to six leading hash characters,
then at least one whitespace character, the remainder trimmed.  Returns
the level and the heading text. -/
def headingMatch (l : Str) : Option (Nat × Str) :=
  let n := (l.takeWhile (· == '#')).length
  let rest := l.drop n
  if 1 ≤ n ∧ n ≤ 6 ∧ headIsWS rest = true then some (n, jsTrim rest) else none

/-- Main loop of tokenize over the split lines.  The arguments mirror the
source locals: remaining lines, pending text buffer, inCode flag, fence
language, fence body buffer.  At the end of input the pending text run is
flushed and a nonempty unterminated fence body is re-emitted as a text
token behind a bare three-backtick marker line. -/
def tokRun : List Str → List Str → Bool → Option Str → List Str → List Part
  | [], buf, inCode, _, codeBuf =>
    flushText buf ++
      (if inCode && !codeBuf.isEmpty then
        [Part.text (str "```" ++ '\n' :: joinNL codeBuf)]
      else [])
  | l :: rest, buf, inCode, codeLang, codeBuf =>
    if !inCode && openFenceTest l then
      flushText buf ++ tokRun rest [] true (fenceLang l) []
    else if inCode then
      if closeFenceTest l then
        Part.code codeLang (joinNL codeBuf) :: tokRun rest buf false none []
      else
        tokRun rest buf inCode codeLang (codeBuf ++ [l])
    else
      match headingMatch l with
      | some lt => flushText buf ++ Part.heading lt.1 lt.2 :: tokRun rest [] inCode codeLang codeBuf
      | none => tokRun rest (buf ++ [l]) inCode codeLang codeBuf

/-- Embeds tokenize of main.tsx. -/
def tokenize (md : Str) : List Part :=
  tokRun (splitNL (normNL md)) [] false none []

/-- Section type of main.tsx (type Segment).  The random display id is a
presentation detail with no bearing on any claim and is omitted. -/
structure Segment where
  heading : Option (Nat × Str)
  parts : List Part
deriving DecidableEq

/-- Whether a token is a section boundary at the given depth. -/
def isBoundary (d : Nat) : Part → Bool
  | Part.heading lv _ => decide (lv ≤ d)
  | _ => false

/-- The list of finished sections contributed by the current section slot
when a new section starts or input ends. -/
def emitCur : Option Segment → List Segment
  | none => []
  | some c => [c]

/-- Embeds startSeg of toSegments: a heading section starts with the
heading token as its first member, the headingless section starts empty. -/
def startSeg : Option (Nat × Str) → Segment
  | some lt => { heading := some lt, parts := [Part.heading lt.1 lt.2] }
  | none => { heading := none, parts := [] }

/-- Appending a token to the current section, creating the headingless
section first when none is open. -/
def appendCur (cur : Option Segment) (p : Part) : Segment :=
  let c := cur.getD (startSeg none)
  { c with parts := c.parts ++ [p] }

/-- Loop of toSegments: a heading token at boundary level finishes the
current section and starts a fresh one; every other token is appended to
the current section. -/
def segRun (d : Nat) : List Part → Option Segment → List Segment
  | [], cur => emitCur cur
  | p :: rest, cur =>
    match p with
    | Part.heading lv tx =>
      if lv ≤ d then
        emitCur cur ++ segRun d rest (some (startSeg (some (lv, tx))))
      else
        segRun d rest (some (appendCur cur (Part.heading lv tx)))
    | q => segRun d rest (some (appendCur cur q))

/-- Embeds toSegments of main.tsx: run the loop and drop empty sections. -/
def toSegments (parts : List Part) (d : Nat) : List Segment :=
  (segRun d parts none).filter fun s => !s.parts.isEmpty

/-- Lines pushed for one token by segmentToMarkdown. -/
def partLines : Part → List Str
  | Part.heading lv tx => [List.replicate lv '#' ++ ' ' :: tx]
  | Part.text t => [t]
  | Part.code lang body => (str "```" ++ lang.getD []) :: body :: [str "```"]

/-- Embeds segmentToMarkdown of main.tsx: the heading attribute rendered
first when present, then the lines of every member token, joined by
newlines and trimmed. -/
def segmentToMarkdown (seg : Segment) : Str :=
  jsTrim (joinNL
    ((match seg.heading with
      | some lt => [List.replicate lt.1 '#' ++ ' ' :: lt.2]
      | none => []) ++ (seg.parts.map partLines).flatten))

/-- Behavior of the legacy copy command invocation in one run, fixed by
the environment: it reports success, reports failure, is absent from the
platform (the typeof guard yields false), or throws. -/
inductive ExecCmdBehavior where
  | returnsTrue
  | returnsFalse
  | unsupported
  | throws
deriving DecidableEq

/-- Environment of one copyWithExecCommand run: whether attaching the
transient textarea throws, whether selecting its contents throws, and how
the copy command behaves. -/
structure LegacyEnv where
  appendChildThrows : Bool
  selectThrows : Bool
  execCmd : ExecCmdBehavior
deriving DecidableEq

/-- Embeds copyWithExecCommand of part_000.  The first component is the
returned boolean; the second counts the transient textarea elements still
attached to the document when the call returns.  The source wraps the
whole sequence in a try block whose catch logs and returns false, and it
removes the element only on the straight-line path after the command
invocation, so a throw from select or from the command itself leaves the
attached element behind. -/
def copyWithExecCommand (env : LegacyEnv) : Bool × Nat :=
  if env.appendChildThrows then (false, 0)
  else if env.selectThrows then (false, 1)
  else
    match env.execCmd with
    | ExecCmdBehavior.throws => (false, 1)
    | ExecCmdBehavior.unsupported => (false, 0)
    | ExecCmdBehavior.returnsTrue => (true, 0)
    | ExecCmdBehavior.returnsFalse => (false, 0)

/-- Invariant checked by claim C10 on one section: a section with a
heading attribute carries the matching heading token as its first member,
and a headingless section holds no boundary-level heading token. -/
def headInvariant (d : Nat) (s : Segment) : Bool :=
  match s.heading with
  | some lt => s.parts.head? == some (Part.heading lt.1 lt.2)
  | none => s.parts.all fun p => !isBoundary d p

/-- Outcome of smartCopy, as in part_000. -/
inductive CopyOutcome where
  | clipboard
  | exec
  | manual
deriving DecidableEq

/-- Observable attempts made by one smartCopy call, in order. -/
inductive CopyEvent where
  | nativeTry
  | legacyTry
  | manualCall
deriving DecidableEq

/-- Environment of one smartCopy run: whether the async clipboard object
exists, whether the context is secure, whether the native write settles
successfully, and the legacy tier environment. -/
structure CopyEnv where
  hasClipboard : Bool
  secureContext : Bool
  writeSucceeds : Bool
  legacy : LegacyEnv
deriving DecidableEq

/-- Catch block of smartCopy: try the legacy tier, and when it reports
failure invoke the manual callback once and return the manual outcome. -/
def smartFallback (env : CopyEnv) (evts : List CopyEvent) : CopyOutcome × List CopyEvent :=
  if (copyWithExecCommand env.legacy).1 then
    (CopyOutcome.exec, evts ++ [CopyEvent.legacyTry])
  else
    (CopyOutcome.manual, evts ++ [CopyEvent.legacyTry, CopyEvent.manualCall])

/-- Embeds smartCopy of part_000, also recording the ordered list of tier
attempts.  The native write is attempted only when the clipboard object
exists in a secure context; any rejection, and the deliberate throw when
the capability is absent, fall into the catch block. -/
def smartCopy (env : CopyEnv) : CopyOutcome × List CopyEvent :=
  if env.hasClipboard && env.secureContext then
    if env.writeSucceeds then (CopyOutcome.clipboard, [CopyEvent.nativeTry])
    else smartFallback env [CopyEvent.nativeTry]
  else smartFallback env []

/-! Helper lemmas about the tokenizer loop. -/

lemma fence3_eq : str "```" = [bt, bt, bt] := by decide

lemma isWS_bt : isWS bt = false := by decide

/-- Inside a fence, every line up to the first closing line is buffered
verbatim, and the closing line emits the code token with the buffered
body. -/
lemma tokRun_close (mid : List Str) :
    ∀ (lang : Option Str) (cb : List Str) (closeL : Str) (rest buf : List Str),
      (∀ m ∈ mid, closeFenceTest m = false) → closeFenceTest closeL = true →
      tokRun (mid ++ closeL :: rest) buf true lang cb =
        Part.code lang (joinNL (cb ++ mid)) :: tokRun rest buf false none [] := by
  induction mid with
  | nil =>
    intro lang cb closeL rest buf _ hc
    simp [tokRun, hc]
  | cons m mid ih =>
    intro lang cb closeL rest buf hm hc
    have hm0 : closeFenceTest m = false := hm m (by simp)
    have hrest : ∀ x ∈ mid, closeFenceTest x = false := fun x hx => hm x (by simp [hx])
    simp only [List.cons_append, tokRun, hm0, Bool.not_true, Bool.false_and, if_false,
      Bool.false_eq_true, if_true, List.append_eq]
    rw [ih lang (cb ++ [m]) closeL rest buf hrest hc]
    simp

/-! Helper lemmas about joinNL. -/

lemma joinNL_cons (l : Str) (ls : List Str) (h : ls ≠ []) :
    joinNL (l :: ls) = l ++ '\n' :: joinNL ls := by
  cases ls with
  | nil => exact absurd rfl h
  | cons a ls' => rfl

lemma joinNL_append (a : List Str) :
    ∀ (b : List Str), a ≠ [] → b ≠ [] →
      joinNL (a ++ b) = joinNL a ++ '\n' :: joinNL b := by
  induction a with
  | nil => intro b ha _; exact absurd rfl ha
  | cons l a ih =>
    intro b _ hb
    cases a with
    | nil =>
      cases b with
      | nil => exact absurd rfl hb
      | cons m b' =>
        rw [List.singleton_append, joinNL_cons l (m :: b') (by simp)]
        rfl
    | cons m a' =>
      rw [List.cons_append, joinNL_cons l ((m :: a') ++ b) (by simp),
        ih b (by simp) hb, joinNL_cons l (m :: a') (by simp)]
      simp

lemma joinNL_replicate (k : Nat) :
    joinNL (List.replicate (k + 1) ([] : Str)) = List.replicate k '\n' := by
  induction k with
  | zero => rfl
  | succ n ih =>
    rw [List.replicate_succ, joinNL_cons _ _ (by simp [List.replicate_succ]), ih,
      List.replicate_succ]
    simp

/-! Helper lemmas about the leading and trailing strip scanners. -/

lemma slAux_cons_nl (r acc : Str) : slAux acc ('\n' :: r) = slAux r r := by
  simp [slAux]

lemma slAux_cons_ws (c : Char) (r acc : Str) (h1 : ¬ c = '\n') (h2 : isWS c = true) :
    slAux acc (c :: r) = slAux acc r := by
  simp [slAux, h1, h2]

lemma slAux_cons_nonws (c : Char) (r acc : Str) (h1 : ¬ c = '\n') (h2 : isWS c = false) :
    slAux acc (c :: r) = acc := by
  simp [slAux, h1, h2]

lemma slAux_nonWS (p : Str) :
    ∀ (acc tail : Str), (∃ c ∈ p, isWS c = false) →
      slAux (acc ++ tail) (p ++ tail) = slAux acc p ++ tail := by
  induction p with
  | nil => intro acc tail h; simp at h
  | cons c p ih =>
    intro acc tail h
    by_cases hws : isWS c = true
    · have h' : ∃ x ∈ p, isWS x = false := by
        rcases h with ⟨x, hx, hxf⟩
        rcases List.mem_cons.mp hx with rfl | hx'
        · rw [hws] at hxf; cases hxf
        · exact ⟨x, hx', hxf⟩
      by_cases hnl : c = '\n'
      · subst hnl
        rw [List.cons_append, slAux_cons_nl, slAux_cons_nl]
        exact ih p tail h'
      · rw [List.cons_append, slAux_cons_ws c _ _ hnl hws,
          slAux_cons_ws c _ _ hnl hws]
        exact ih acc tail h'
    · have hws' : isWS c = false := by revert hws; cases isWS c <;> simp
      have hnl : ¬ c = '\n' := by
        intro hh
        subst hh
        simp [isWS] at hws'
      rw [List.cons_append, slAux_cons_nonws c _ _ hnl hws',
        slAux_cons_nonws c _ _ hnl hws']

lemma slAux_allWS (w : Str) :
    ∀ (acc tail : Str), (∀ c ∈ w, isWS c = true) →
      slAux acc (w ++ '\n' :: tail) = slAux tail tail := by
  induction w with
  | nil => intro acc tail _; rw [List.nil_append, slAux_cons_nl]
  | cons c w ih =>
    intro acc tail hw
    have hc : isWS c = true := hw c (by simp)
    have hw' : ∀ x ∈ w, isWS x = true := fun x hx => hw x (by simp [hx])
    by_cases hnl : c = '\n'
    · subst hnl
      rw [List.cons_append, slAux_cons_nl]
      exact ih _ tail hw'
    · rw [List.cons_append, slAux_cons_ws c _ _ hnl hc]
      exact ih acc tail hw'

lemma stripLeading_append_of_nonWS (P : Str) (hex : ∃ c ∈ P, isWS c = false)
    (tail : Str) : stripLeading (P ++ tail) = stripLeading P ++ tail :=
  slAux_nonWS P P tail hex

lemma stripLeading_allWS_nl (w tail : Str) (hw : ∀ c ∈ w, isWS c = true) :
    stripLeading (w ++ '\n' :: tail) = stripLeading tail :=
  slAux_allWS w (w ++ '\n' :: tail) tail hw

/-! Helper lemmas about the newline-collapse scanner. -/

lemma nlEmit_zero : nlEmit 0 = [] := rfl

lemma nlEmit_ge2 (k : Nat) (h : 2 ≤ k) : nlEmit k = ['\n', '\n'] := by
  by_cases h3 : 3 ≤ k
  · simp [nlEmit, h3]
  · have hk : k = 2 := by omega
    subst hk
    rfl

lemma nlEmit_replicate (k : Nat) :
    nlEmit k = List.replicate (if 3 ≤ k then 2 else k) '\n' := by
  by_cases h : 3 ≤ k <;> simp [nlEmit, h, List.replicate_succ]

lemma collapseGo_nil (k : Nat) : collapseGo k [] = nlEmit k := rfl

lemma collapseGo_cons_nl (k : Nat) (r : Str) :
    collapseGo k ('\n' :: r) = collapseGo (k + 1) r := by
  simp [collapseGo]

lemma collapseGo_cons (k : Nat) (c : Char) (r : Str) (h : ¬ c = '\n') :
    collapseGo k (c :: r) = nlEmit k ++ c :: collapseGo 0 r := by
  simp [collapseGo, h]

lemma collapseGo_replicate (m : Nat) :
    ∀ (k : Nat) (v : Str),
      collapseGo k (List.replicate m '\n' ++ v) = collapseGo (k + m) v := by
  induction m with
  | zero => intro k v; simp
  | succ n ih =>
    intro k v
    rw [List.replicate_succ, List.cons_append, collapseGo_cons_nl, ih (k + 1) v]
    congr 1
    omega

lemma collapseGo_ge2 (v : Str) :
    ∀ (k₁ k₂ : Nat), 2 ≤ k₁ → 2 ≤ k₂ → collapseGo k₁ v = collapseGo k₂ v := by
  induction v with
  | nil =>
    intro k₁ k₂ h₁ h₂
    rw [collapseGo_nil, collapseGo_nil, nlEmit_ge2 k₁ h₁, nlEmit_ge2 k₂ h₂]
  | cons c v ih =>
    intro k₁ k₂ h₁ h₂
    by_cases hnl : c = '\n'
    · subst hnl
      rw [collapseGo_cons_nl, collapseGo_cons_nl]
      exact ih (k₁ + 1) (k₂ + 1) (by omega) (by omega)
    · rw [collapseGo_cons k₁ c v hnl, collapseGo_cons k₂ c v hnl,
        nlEmit_ge2 k₁ h₁, nlEmit_ge2 k₂ h₂]

lemma collapseGo_mid (u : Str) :
    ∀ (k m₁ m₂ : Nat) (v : Str), 2 ≤ m₁ → 2 ≤ m₂ →
      collapseGo k (u ++ List.replicate m₁ '\n' ++ v) =
        collapseGo k (u ++ List.replicate m₂ '\n' ++ v) := by
  induction u with
  | nil =>
    intro k m₁ m₂ v h₁ h₂
    simp only [List.nil_append]
    rw [collapseGo_replicate, collapseGo_replicate]
    exact collapseGo_ge2 v _ _ (by omega) (by omega)
  | cons c u ih =>
    intro k m₁ m₂ v h₁ h₂
    by_cases hnl : c = '\n'
    · subst hnl
      simp only [List.cons_append]
      rw [collapseGo_cons_nl, collapseGo_cons_nl]
      exact ih (k + 1) m₁ m₂ v h₁ h₂
    · simp only [List.cons_append]
      rw [collapseGo_cons _ c _ hnl, collapseGo_cons _ c _ hnl,
        ih 0 m₁ m₂ v h₁ h₂]

lemma collapseGo_last (w : Str) :
    ∀ (k t : Nat), w ≠ [] → w.getLast? ≠ some '\n' →
      collapseGo k (w ++ List.replicate t '\n') = collapseGo k w ++ nlEmit t := by
  induction w with
  | nil => intro k t h _; exact absurd rfl h
  | cons c w ih =>
    intro k t _ hlast
    cases w with
    | nil =>
      have hc : ¬ c = '\n' := by
        intro hh
        subst hh
        simp at hlast
      have hrun : collapseGo 0 (List.replicate t '\n') = nlEmit t := by
        have h := collapseGo_replicate t 0 []
        simpa using h
      rw [List.singleton_append, collapseGo_cons k c _ hc, hrun,
        collapseGo_cons k c [] hc, collapseGo_nil, nlEmit_zero]
      simp
    | cons m w' =>
      have hlast' : (m :: w').getLast? ≠ some '\n' := by
        rw [List.getLast?_cons_cons] at hlast
        exact hlast
      by_cases hnl : c = '\n'
      · subst hnl
        simp only [List.cons_append]
        rw [collapseGo_cons_nl, collapseGo_cons_nl]
        exact ih (k + 1) t (by simp) hlast'
      · simp only [List.cons_append]
        rw [collapseGo_cons _ c _ hnl, collapseGo_cons _ c _ hnl]
        have hih : collapseGo 0 (m :: (w' ++ List.replicate t '\n')) =
            collapseGo 0 (m :: w') ++ nlEmit t := ih 0 t (by simp) hlast'
        rw [hih]
        simp

lemma exists_nl_decomp (s : Str) :
    ∃ w m, s = w ++ List.replicate m '\n' ∧ (w = [] ∨ w.getLast? ≠ some '\n') := by
  induction s with
  | nil => exact ⟨[], 0, by simp, Or.inl rfl⟩
  | cons c s ih =>
    obtain ⟨w, m, hs, hw⟩ := ih
    by_cases hne : w = []
    · subst hne
      by_cases hnl : c = '\n'
      · subst hnl
        exact ⟨[], m + 1, by simp [hs, List.replicate_succ], Or.inl rfl⟩
      · exact ⟨[c], m, by simp [hs], Or.inr (by simp [hnl])⟩
    · have hlast : w.getLast? ≠ some '\n' := hw.resolve_left hne
      obtain ⟨x, xs, rfl⟩ : ∃ x xs, w = x :: xs := by
        cases w with
        | nil => exact absurd rfl hne
        | cons x xs => exact ⟨x, xs, rfl⟩
      exact ⟨c :: x :: xs, m, by simp [hs],
        Or.inr (by rwa [List.getLast?_cons_cons])⟩

lemma slAux_nl_skip (j : Nat) :
    ∀ (a r : Str), slAux a (List.replicate (j + 1) '\n' ++ r) = slAux r r := by
  induction j with
  | zero =>
    intro a r
    rw [List.replicate_succ]
    simp [slAux_cons_nl]
  | succ n ih =>
    intro a r
    rw [List.replicate_succ, List.cons_append, slAux_cons_nl]
    exact ih _ r

lemma stripTrailing_append_nl (X : Str) (j : Nat) :
    stripTrailing (X ++ List.replicate j '\n') = stripTrailing X := by
  cases j with
  | zero => simp
  | succ n =>
    simp only [stripTrailing, List.reverse_append, List.reverse_replicate]
    rw [slAux_nl_skip n _ X.reverse]

lemma stripTrailing_replicate (j : Nat) :
    stripTrailing (List.replicate j '\n') = [] := by
  have h := stripTrailing_append_nl [] j
  simpa using h

lemma stripTrailing_collapseGo (s : Str) (k t : Nat) :
    stripTrailing (collapseGo k (s ++ List.replicate t '\n')) =
      stripTrailing (collapseGo k s) := by
  obtain ⟨w, m, rfl, hw⟩ := exists_nl_decomp s
  by_cases hnil : w = []
  · subst hnil
    simp only [List.nil_append]
    have e : ∀ j : Nat, stripTrailing (collapseGo k (List.replicate j '\n')) = [] := by
      intro j
      have h1 : collapseGo k (List.replicate j '\n') = nlEmit (k + j) := by
        have h := collapseGo_replicate j k []
        simpa using h
      rw [h1, nlEmit_replicate, stripTrailing_replicate]
    rw [← List.replicate_add, e (m + t), e m]
  · have hlast : w.getLast? ≠ some '\n' := hw.resolve_left hnil
    rw [List.append_assoc, ← List.replicate_add,
      collapseGo_last w k (m + t) hnil hlast,
      collapseGo_last w k m hnil hlast,
      nlEmit_replicate, nlEmit_replicate,
      stripTrailing_append_nl, stripTrailing_append_nl]

/-! Head and last facts about the normalization. -/

lemma slAux_head (s : Str) :
    (∀ acc : Str, acc.head? ≠ some '\n' → (slAux acc s).head? ≠ some '\n') ∧
      (slAux s s).head? ≠ some '\n' := by
  induction s with
  | nil =>
    refine ⟨fun acc h => ?_, ?_⟩
    · simpa [slAux] using h
    · simp [slAux]
  | cons c r ih =>
    have step : ∀ acc : Str, acc.head? ≠ some '\n' →
        (slAux acc (c :: r)).head? ≠ some '\n' := by
      intro acc hacc
      by_cases hnl : c = '\n'
      · subst hnl
        rw [slAux_cons_nl]
        exact ih.2
      · by_cases hws : isWS c = true
        · rw [slAux_cons_ws c r acc hnl hws]
          exact ih.1 acc hacc
        · have hws' : isWS c = false := by revert hws; cases isWS c <;> simp
          rw [slAux_cons_nonws c r acc hnl hws']
          exact hacc
    refine ⟨step, ?_⟩
    by_cases hnl : c = '\n'
    · subst hnl
      rw [slAux_cons_nl]
      exact ih.2
    · exact step (c :: r) (by simp [hnl])

lemma stripLeading_head (s : Str) : (stripLeading s).head? ≠ some '\n' :=
  (slAux_head s).2

lemma collapseNL_head (s : Str) (h : s.head? ≠ some '\n') :
    (collapseNL s).head? ≠ some '\n' := by
  cases s with
  | nil => simp [collapseNL, collapseGo_nil, nlEmit_zero]
  | cons c r =>
    have hc : ¬ c = '\n' := by simpa using h
    simp only [collapseNL]
    rw [collapseGo_cons 0 c r hc, nlEmit_zero]
    simpa using hc

lemma slAux_suffix (s : Str) :
    ∀ (acc X : Str), List.IsSuffix acc X → List.IsSuffix s X →
      List.IsSuffix (slAux acc s) X := by
  induction s with
  | nil => intro acc X ha _; simpa [slAux] using ha
  | cons c r ih =>
    intro acc X ha hs
    have hr : List.IsSuffix r X := by
      rcases hs with ⟨u, hu⟩
      exact ⟨u ++ [c], by simpa [List.append_assoc] using hu⟩
    by_cases hnl : c = '\n'
    · subst hnl
      rw [slAux_cons_nl]
      exact ih r X hr hr
    · by_cases hws : isWS c = true
      · rw [slAux_cons_ws c r acc hnl hws]
        exact ih acc X ha hr
      · have hws' : isWS c = false := by revert hws; cases isWS c <;> simp
        rw [slAux_cons_nonws c r acc hnl hws']
        exact ha

lemma stripTrailing_front (s : Str) : List.IsPrefix (stripTrailing s) s := by
  obtain ⟨u, hu⟩ :=
    slAux_suffix s.reverse s.reverse s.reverse ⟨[], by simp⟩ ⟨[], by simp⟩
  refine ⟨u.reverse, ?_⟩
  simp only [stripTrailing]
  rw [← List.reverse_append, hu, List.reverse_reverse]

lemma isPrefix_head_ne (t s : Str) (h : List.IsPrefix t s)
    (hs : s.head? ≠ some '\n') : t.head? ≠ some '\n' := by
  cases t with
  | nil => simp
  | cons a t' =>
    obtain ⟨r, hr⟩ := h
    rw [← hr] at hs
    simpa using hs

lemma stripTrailing_getLast (s : Str) : (stripTrailing s).getLast? ≠ some '\n' := by
  simp only [stripTrailing]
  rw [List.getLast?_reverse]
  exact (slAux_head s.reverse).2

lemma normStr_head (s : Str) : (normStr s).head? ≠ some '\n' := by
  simp only [normStr]
  exact isPrefix_head_ne _ _ (stripTrailing_front _)
    (collapseNL_head _ (stripLeading_head s))

lemma normStr_getLast (s : Str) : (normStr s).getLast? ≠ some '\n' :=
  stripTrailing_getLast _

/-! Invariance of the normalization in the length of an interior or
trailing newline run. -/

lemma normStr_mid (P S : Str) (m₁ m₂ : Nat) (h₁ : 2 ≤ m₁) (h₂ : 2 ≤ m₂) :
    normStr (P ++ List.replicate m₁ '\n' ++ S) =
      normStr (P ++ List.replicate m₂ '\n' ++ S) := by
  by_cases hall : ∀ c ∈ P, isWS c = true
  · have e : ∀ m : Nat, 1 ≤ m →
        stripLeading (P ++ List.replicate m '\n' ++ S) = stripLeading S := by
      intro m hm
      obtain ⟨n, rfl⟩ : ∃ n, m = n + 1 := ⟨m - 1, by omega⟩
      have hw : ∀ c ∈ P ++ List.replicate n '\n', isWS c = true := by
        intro c hc
        rcases List.mem_append.mp hc with h | h
        · exact hall c h
        · rw [List.eq_of_mem_replicate h]
          decide
      have hshape : P ++ List.replicate (n + 1) '\n' ++ S =
          (P ++ List.replicate n '\n') ++ '\n' :: S := by
        rw [List.replicate_succ']
        simp [List.append_assoc]
      rw [hshape, stripLeading_allWS_nl _ _ hw]
    simp only [normStr]
    rw [e m₁ (by omega), e m₂ (by omega)]
  · have hex : ∃ c ∈ P, isWS c = false := by
      push_neg at hall
      rcases hall with ⟨c, hc, hcf⟩
      exact ⟨c, hc, by revert hcf; cases isWS c <;> simp⟩
    simp only [normStr]
    rw [List.append_assoc, List.append_assoc,
      stripLeading_append_of_nonWS P hex, stripLeading_append_of_nonWS P hex,
      ← List.append_assoc, ← List.append_assoc]
    simp only [collapseNL]
    rw [collapseGo_mid (stripLeading P) 0 m₁ m₂ S h₁ h₂]

lemma normStr_last (P : Str) (m₁ m₂ : Nat) (h₁ : 1 ≤ m₁) (h₂ : 1 ≤ m₂) :
    normStr (P ++ List.replicate m₁ '\n') = normStr (P ++ List.replicate m₂ '\n') := by
  by_cases hall : ∀ c ∈ P, isWS c = true
  · have e : ∀ m : Nat, 1 ≤ m →
        stripLeading (P ++ List.replicate m '\n') = [] := by
      intro m hm
      obtain ⟨n, rfl⟩ : ∃ n, m = n + 1 := ⟨m - 1, by omega⟩
      have hw : ∀ c ∈ P ++ List.replicate n '\n', isWS c = true := by
        intro c hc
        rcases List.mem_append.mp hc with h | h
        · exact hall c h
        · rw [List.eq_of_mem_replicate h]
          decide
      have hshape : P ++ List.replicate (n + 1) '\n' =
          (P ++ List.replicate n '\n') ++ '\n' :: [] := by
        rw [List.replicate_succ']
        simp [List.append_assoc]
      rw [hshape, stripLeading_allWS_nl _ _ hw]
      rfl
    simp only [normStr]
    rw [e m₁ (by omega), e m₂ (by omega)]
  · have hex : ∃ c ∈ P, isWS c = false := by
      push_neg at hall
      rcases hall with ⟨c, hc, hcf⟩
      exact ⟨c, hc, by revert hcf; cases isWS c <;> simp⟩
    simp only [normStr, collapseNL]
    rw [stripLeading_append_of_nonWS P hex, stripLeading_append_of_nonWS P hex,
      stripTrailing_collapseGo (stripLeading P) 0 m₁,
      stripTrailing_collapseGo (stripLeading P) 0 m₂]

lemma normStr_replicate (j : Nat) : normStr (List.replicate j '\n') = [] := by
  cases j with
  | zero => rfl
  | succ n =>
    have hw : ∀ c ∈ List.replicate n '\n', isWS c = true := by
      intro c hc
      rw [List.eq_of_mem_replicate hc]
      decide
    have hshape : List.replicate (n + 1) '\n' =
        List.replicate n '\n' ++ '\n' :: [] := by
      rw [List.replicate_succ']
    simp only [normStr]
    rw [hshape, stripLeading_allWS_nl _ _ hw]
    rfl

/-! Helper lemmas about the segmenter loop. -/

lemma appendCur_none (p : Part) :
    appendCur none p = { heading := none, parts := [p] } := by
  simp [appendCur, startSeg]

lemma appendCur_mk (h : Option (Nat × Str)) (acc : List Part) (q : Part) :
    appendCur (some { heading := h, parts := acc }) q =
      { heading := h, parts := acc ++ [q] } := by
  simp [appendCur]

/-- One non-boundary token is appended to the open section. -/
lemma segRun_step_nonboundary (d : Nat) (q : Part) (l : List Part)
    (cur : Option Segment) (hq : isBoundary d q = false) :
    segRun d (q :: l) cur = segRun d l (some (appendCur cur q)) := by
  cases q with
  | heading lv tx =>
    have hlv : ¬ lv ≤ d := by
      intro h
      simp [isBoundary, h] at hq
    simp [segRun, hlv]
  | text t => simp [segRun]
  | code lg bd => simp [segRun]

/-- A run of non-boundary tokens is appended, in order, to the open
headingless section. -/
lemma segRun_pre (d : Nat) :
    ∀ (pre rest acc : List Part), (∀ q ∈ pre, isBoundary d q = false) →
      segRun d (pre ++ rest) (some { heading := none, parts := acc }) =
        segRun d rest (some { heading := none, parts := acc ++ pre }) := by
  intro pre
  induction pre with
  | nil => intro rest acc _; simp
  | cons q pre ih =>
    intro rest acc hq
    have hq0 : isBoundary d q = false := hq q (by simp)
    have hrest : ∀ x ∈ pre, isBoundary d x = false := fun x hx => hq x (by simp [hx])
    rw [List.cons_append, segRun_step_nonboundary d q _ _ hq0, appendCur_mk,
      ih rest (acc ++ [q]) hrest]
    simp

/-- Appending a non-boundary token preserves the section invariant. -/
lemma appendCur_invariant (d : Nat) (cur : Option Segment) (p : Part)
    (hcur : ∀ s ∈ emitCur cur, headInvariant d s = true)
    (hp : isBoundary d p = false) :
    headInvariant d (appendCur cur p) = true := by
  cases cur with
  | none => simp [appendCur, startSeg, headInvariant, hp]
  | some c =>
    have hc : headInvariant d c = true := hcur c (by simp [emitCur])
    cases hhead : c.heading with
    | none =>
      simp only [headInvariant, hhead] at hc ⊢
      simp only [appendCur, Option.getD_some, hhead]
      simp [List.all_append, hc, hp]
    | some lt =>
      simp only [headInvariant, hhead] at hc ⊢
      simp only [appendCur, Option.getD_some, hhead]
      cases hparts : c.parts with
      | nil => simp [hparts] at hc
      | cons a l => simp_all

/-- Every section emitted by the segmenter loop satisfies the section
invariant, provided the current section does. -/
lemma segRun_invariant (d : Nat) :
    ∀ (parts : List Part) (cur : Option Segment),
      (∀ s ∈ emitCur cur, headInvariant d s = true) →
      ∀ s ∈ segRun d parts cur, headInvariant d s = true := by
  intro parts
  induction parts with
  | nil => intro cur h s hs; exact h s hs
  | cons p rest ih =>
    intro cur h s hs
    cases p with
    | heading lv tx =>
      by_cases hlv : lv ≤ d
      · simp only [segRun, if_pos hlv] at hs
        rcases List.mem_append.mp hs with h1 | h2
        · exact h s h1
        · refine ih _ ?_ s h2
          intro s' hs'
          simp only [emitCur, List.mem_singleton] at hs'
          subst hs'
          simp [headInvariant, startSeg]
      · simp only [segRun, if_neg hlv] at hs
        refine ih _ ?_ s hs
        intro s' hs'
        simp only [emitCur, List.mem_singleton] at hs'
        subst hs'
        exact appendCur_invariant d cur _ h (by simp [isBoundary, hlv])
    | text t =>
      simp only [segRun] at hs
      refine ih _ ?_ s hs
      intro s' hs'
      simp only [emitCur, List.mem_singleton] at hs'
      subst hs'
      exact appendCur_invariant d cur _ h (by simp [isBoundary])
    | code lg bd =>
      simp only [segRun] at hs
      refine ih _ ?_ s hs
      intro s' hs'
      simp only [emitCur, List.mem_singleton] at hs'
      subst hs'
      exact appendCur_invariant d cur _ h (by simp [isBoundary])

/-! Claim theorems. -/

/-- C1 (code bug): the serializer emits the heading twice — once from the
heading attribute and once from the heading token stored as the first
member — so the round trip of the one-section input consisting of a level
one heading and one text line produces the serialized text with a
duplicated heading line, and re-tokenizing and re-segmenting it at the
same depth yields two sections instead of one section with identical
content.  This contradicts the claimed round-trip property. -/
theorem c1_roundtrip_duplicate_heading :
    toSegments (tokenize (str "# A\nx")) 1 =
      [{ heading := some (1, str "A"),
         parts := [Part.heading 1 (str "A"), Part.text (str "x")] }] ∧
    segmentToMarkdown
        { heading := some (1, str "A"),
          parts := [Part.heading 1 (str "A"), Part.text (str "x")] } =
      str "# A\n# A\nx" ∧
    toSegments (tokenize (str "# A\n# A\nx")) 1 =
      [{ heading := some (1, str "A"), parts := [Part.heading 1 (str "A")] },
       { heading := some (1, str "A"),
         parts := [Part.heading 1 (str "A"), Part.text (str "x")] }] := by
  decide

/-- C2 counterexample: on the claim's own input the unterminated fence is
re-emitted behind a bare three-backtick marker, so the resulting text
token does not contain the literal fence line with its language tag. -/
theorem c2_literal_fence_counterexample :
    tokenize (str "# T\n```js\nconsole.log(1)") =
      [Part.heading 1 (str "T"), Part.text (str "```\nconsole.log(1)")] ∧
    decide (str "```js" <:+: str "```\nconsole.log(1)") = false := by
  decide

/-- C2 amended: if the input ends inside an unterminated fence with a
nonempty accumulated body, the body is re-emitted as a single plain text
token prefixed by a bare three-backtick marker line (the opening line's
language tag is dropped); the claim's input tokenizes to a level-one
heading followed by that single text token. -/
theorem c2_unterminated_fence (lang : Option Str) (codeBuf : List Str)
    (h : codeBuf ≠ []) :
    tokRun [] [] true lang codeBuf =
      [Part.text (str "```" ++ '\n' :: joinNL codeBuf)] ∧
    tokenize (str "# T\n```js\nconsole.log(1)") =
      [Part.heading 1 (str "T"), Part.text (str "```\nconsole.log(1)")] := by
  constructor
  · cases codeBuf with
    | nil => exact absurd rfl h
    | cons a l => simp [tokRun, flushText]
  · decide

/-- Witness for the amended C2 at a concrete one-line body. -/
theorem c2_unterminated_fence_witness :
    tokRun [] [] true none [str "x"] =
      [Part.text (str "```" ++ '\n' :: joinNL [str "x"])] ∧
    tokenize (str "# T\n```js\nconsole.log(1)") =
      [Part.heading 1 (str "T"), Part.text (str "```\nconsole.log(1)")] :=
  c2_unterminated_fence none [str "x"] (by decide)

/-- C3 counterexample: when the copy command invocation throws, the call
returns false and one transient textarea element is left attached to the
document, so cleanup is not guaranteed on the thrown-error exit path. -/
theorem c3_leak_counterexample :
    copyWithExecCommand
        { appendChildThrows := false, selectThrows := false,
          execCmd := ExecCmdBehavior.throws } = (false, 1) := by
  decide

/-- C3 amended: the transient element is removed on every exit path on
which neither the select step nor the copy command invocation throws —
success, command-reported failure and command-unsupported all leave no
element attached; a throw after attachment leaks the element. -/
theorem c3_guaranteed_cleanup (env : LegacyEnv)
    (h1 : env.selectThrows = false) (h2 : env.execCmd ≠ ExecCmdBehavior.throws) :
    (copyWithExecCommand env).2 = 0 := by
  rcases env with ⟨a, s, e⟩
  cases a <;> cases e <;> simp_all [copyWithExecCommand]

/-- Witness for the amended C3 on a successful command invocation. -/
theorem c3_guaranteed_cleanup_witness :
    (copyWithExecCommand
        { appendChildThrows := false, selectThrows := false,
          execCmd := ExecCmdBehavior.returnsTrue }).2 = 0 :=
  c3_guaranteed_cleanup
    { appendChildThrows := false, selectThrows := false,
      execCmd := ExecCmdBehavior.returnsTrue } rfl (by decide)

/-- C4: no tier is attempted more than once per call; whenever the manual
callback is invoked, a legacy attempt precedes it; and when the native
write fails, the legacy tier is attempted, and if it also fails the manual
callback is invoked exactly once and the outcome is the manual one. -/
theorem c4_tier_ordering (env : CopyEnv) :
    ((smartCopy env).2.count CopyEvent.nativeTry ≤ 1 ∧
     (smartCopy env).2.count CopyEvent.legacyTry ≤ 1 ∧
     (smartCopy env).2.count CopyEvent.manualCall ≤ 1) ∧
    (CopyEvent.manualCall ∈ (smartCopy env).2 →
      List.Sublist [CopyEvent.legacyTry, CopyEvent.manualCall] (smartCopy env).2) ∧
    ((env.hasClipboard && env.secureContext && env.writeSucceeds) = false →
      CopyEvent.legacyTry ∈ (smartCopy env).2 ∧
      ((copyWithExecCommand env.legacy).1 = false →
        (smartCopy env).1 = CopyOutcome.manual ∧
        (smartCopy env).2.count CopyEvent.manualCall = 1)) := by
  rcases env with ⟨hc, sc, ws, leg⟩
  cases hb : (copyWithExecCommand leg).1 <;>
    cases hc <;> cases sc <;> cases ws <;>
      simp_all [smartCopy, smartFallback]

/-- Witness for C4 with both automated tiers forced to fail. -/
theorem c4_tier_ordering_witness :
    (smartCopy { hasClipboard := false, secureContext := false, writeSucceeds := false,
                 legacy := { appendChildThrows := false, selectThrows := false,
                             execCmd := ExecCmdBehavior.returnsFalse } }).1 =
      CopyOutcome.manual ∧
    (smartCopy { hasClipboard := false, secureContext := false, writeSucceeds := false,
                 legacy := { appendChildThrows := false, selectThrows := false,
                             execCmd := ExecCmdBehavior.returnsFalse } }).2.count
      CopyEvent.manualCall = 1 := by
  have h := c4_tier_ordering
    { hasClipboard := false, secureContext := false, writeSucceeds := false,
      legacy := { appendChildThrows := false, selectThrows := false,
                  execCmd := ExecCmdBehavior.returnsFalse } }
  exact ((h.2.2 (by decide)).2 (by decide))

/-- C5 counterexample: a line of three tildes does not pass the opening
fence test of the tokenizer, and the tilde input is tokenized as plain
text rather than opening a fence. -/
theorem c5_tilde_counterexample :
    tokenize (str "~~~\nx") = [Part.text (str "~~~\nx")] ∧
    openFenceTest (str "~~~") = false := by
  decide

/-- C5 amended: outside a fence, any line of optional leading whitespace
followed by three or more backticks (optionally followed by a language
tag) opens a fence: the pending text run is flushed, the loop enters
fence mode, and the language tag is recorded; a bare three-backtick line
records no language.  Tilde lines are not recognized by this tokenizer. -/
theorem c5_open_fence (w tag : Str) (k : Nat) (rest buf : List Str)
    (hw : ∀ c ∈ w, isWS c = true) (hk : 3 ≤ k) :
    tokRun ((w ++ List.replicate k bt ++ tag) :: rest) buf false none [] =
      flushText buf ++ tokRun rest [] true (fenceLang (w ++ List.replicate k bt ++ tag)) [] ∧
    fenceLang (w ++ List.replicate 3 bt) = none := by
  obtain ⟨j, rfl⟩ : ∃ j, k = j + 3 := ⟨k - 3, by omega⟩
  have hrep : List.replicate (j + 3) bt = bt :: bt :: bt :: List.replicate j bt := by
    rw [Nat.add_comm, List.replicate_add]
    rfl
  have hbt : ¬ isWS bt = true := by decide
  have hopen : openFenceTest (w ++ List.replicate (j + 3) bt ++ tag) = true := by
    simp only [openFenceTest]
    rw [List.append_assoc, List.dropWhile_append_of_pos hw, hrep]
    simp only [List.cons_append]
    rw [decide_eq_true_eq, List.dropWhile_cons_of_neg hbt, fence3_eq]
    rfl
  constructor
  · simp only [tokRun, hopen, Bool.not_false, Bool.true_and, if_true]
  · have hdrop3 : (w ++ List.replicate 3 bt).dropWhile isWS = List.replicate 3 bt := by
      rw [List.dropWhile_append_of_pos hw,
        show List.replicate 3 bt = bt :: [bt, bt] from rfl,
        List.dropWhile_cons_of_neg hbt]
    simp only [fenceLang]
    rw [hdrop3]
    rfl

/-- Witness for the amended C5 on a bare fence line with a tag. -/
theorem c5_open_fence_witness :
    tokRun [([] ++ List.replicate 3 bt ++ str "js")] [] false none [] =
      flushText [] ++ tokRun [] [] true (fenceLang ([] ++ List.replicate 3 bt ++ str "js")) [] ∧
    fenceLang ([] ++ List.replicate 3 bt) = none :=
  c5_open_fence [] (str "js") 3 [] [] (by simp) (by decide)

/-- C6: a run of three or more consecutive blank lines in a buffered text
run normalizes exactly like a single blank line; the normalized text never
begins or ends with a newline (leading and trailing blank lines are
trimmed); and a run whose normalization is empty produces no token. -/
theorem c6_text_normalization (a b : List Str) (k : Nat) (buf : List Str)
    (hk : 3 ≤ k) :
    trimEmptyJoin (a ++ List.replicate k ([] : Str) ++ b) =
      trimEmptyJoin (a ++ [[]] ++ b) ∧
    (trimEmptyJoin buf).head? ≠ some '\n' ∧
    (trimEmptyJoin buf).getLast? ≠ some '\n' ∧
    (trimEmptyJoin buf = [] → flushText buf = []) := by
  refine ⟨?_, normStr_head _, normStr_getLast _, ?_⟩
  · by_cases ha : a = []
    · subst ha
      by_cases hb : b = []
      · subst hb
        simp only [List.nil_append, List.append_nil]
        obtain ⟨n, rfl⟩ : ∃ n, k = n + 1 := ⟨k - 1, by omega⟩
        simp only [trimEmptyJoin]
        rw [joinNL_replicate n, normStr_replicate n]
        rfl
      · simp only [List.nil_append]
        obtain ⟨n, rfl⟩ : ∃ n, k = n + 1 := ⟨k - 1, by omega⟩
        simp only [trimEmptyJoin]
        rw [joinNL_append (List.replicate (n + 1) []) b
            (by simp [List.replicate_succ]) hb,
          joinNL_replicate n,
          joinNL_append [[]] b (by simp) hb]
        have hw : ∀ c ∈ List.replicate n '\n', isWS c = true := by
          intro c hc
          rw [List.eq_of_mem_replicate hc]
          decide
        simp only [normStr]
        rw [stripLeading_allWS_nl (List.replicate n '\n') (joinNL b) hw]
        rw [show joinNL [[]] = ([] : Str) from rfl, List.nil_append,
          show stripLeading ('\n' :: joinNL b) = stripLeading (joinNL b) from
            slAux_cons_nl (joinNL b) ('\n' :: joinNL b)]
    · by_cases hb : b = []
      · subst hb
        simp only [List.append_nil]
        obtain ⟨n, rfl⟩ : ∃ n, k = n + 1 := ⟨k - 1, by omega⟩
        simp only [trimEmptyJoin]
        rw [joinNL_append a (List.replicate (n + 1) []) ha
            (by simp [List.replicate_succ]),
          joinNL_replicate n,
          joinNL_append a [[]] ha (by simp)]
        rw [show ('\n' :: List.replicate n '\n' : Str) =
            List.replicate (n + 1) '\n' from (List.replicate_succ '\n' n).symm]
        rw [show (('\n' :: joinNL [[]]) : Str) = List.replicate 1 '\n' from rfl]
        exact normStr_last (joinNL a) (n + 1) 1 (by omega) (by omega)
      · obtain ⟨n, rfl⟩ : ∃ n, k = n + 1 := ⟨k - 1, by omega⟩
        simp only [trimEmptyJoin]
        have h1 : joinNL (a ++ List.replicate (n + 1) ([] : Str) ++ b) =
            joinNL a ++ List.replicate (n + 2) '\n' ++ joinNL b := by
          rw [List.append_assoc,
            joinNL_append a (List.replicate (n + 1) [] ++ b)
              ha (by simp [List.replicate_succ]),
            joinNL_append (List.replicate (n + 1) []) b
              (by simp [List.replicate_succ]) hb,
            joinNL_replicate n]
          rw [show (List.replicate n '\n' ++ '\n' :: joinNL b : Str) =
              List.replicate (n + 1) '\n' ++ joinNL b by
            rw [List.replicate_succ']
            simp [List.append_assoc]]
          rw [show ('\n' :: (List.replicate (n + 1) '\n' ++ joinNL b) : Str) =
              List.replicate (n + 2) '\n' ++ joinNL b by
            rw [List.replicate_succ]
            rfl]
          rw [List.append_assoc]
        have h2 : joinNL (a ++ [[]] ++ b) =
            joinNL a ++ List.replicate 2 '\n' ++ joinNL b := by
          rw [List.append_assoc, joinNL_append a ([[]] ++ b) ha (by simp),
            joinNL_append [[]] b (by simp) hb]
          rw [show joinNL [[]] = ([] : Str) from rfl, List.nil_append]
          rw [show ('\n' :: '\n' :: joinNL b : Str) =
              List.replicate 2 '\n' ++ joinNL b from rfl]
          rw [List.append_assoc]
        rw [h1, h2]
        exact normStr_mid (joinNL a) (joinNL b) (n + 2) 2 (by omega) (by omega)
  · intro h
    simp [flushText, h]

/-- Witness for C6 at a three-blank-line run between two text lines. -/
theorem c6_text_normalization_witness :
    trimEmptyJoin ([str "x"] ++ List.replicate 3 ([] : Str) ++ [str "y"]) =
      trimEmptyJoin ([str "x"] ++ [[]] ++ [str "y"]) :=
  (c6_text_normalization [str "x"] [str "y"] 3 [] (by decide)).1

/-- C7: for an input whose lines consist, from a text-mode state with any
pending buffer, of an opening fence line, interior lines none of which
matches the closing pattern, a closing line and then anything, the
tokenizer emits exactly one code token whose body is the interior lines
joined verbatim — in particular no heading token is ever produced for a
hash-prefixed interior line, at any depth, since depth does not enter
tokenization at all. -/
theorem c7_fence_opacity (buf : List Str) (openL : Str) (mid : List Str)
    (closeL : Str) (rest : List Str)
    (ho : openFenceTest openL = true)
    (hm : ∀ m ∈ mid, closeFenceTest m = false)
    (hc : closeFenceTest closeL = true) :
    tokRun (openL :: (mid ++ closeL :: rest)) buf false none [] =
      flushText buf ++ Part.code (fenceLang openL) (joinNL mid) ::
        tokRun rest [] false none [] := by
  simp only [tokRun, ho, Bool.not_false, Bool.true_and, if_true]
  rw [tokRun_close mid (fenceLang openL) [] closeL rest [] hm hc]
  simp

/-- Witness for C7: a heading-looking line inside a fenced block lands in
the code body. -/
theorem c7_fence_opacity_witness :
    tokRun (str "```js" :: ([str "# H"] ++ str "```" :: [])) [] false none [] =
      flushText [] ++ Part.code (fenceLang (str "```js")) (joinNL [str "# H"]) ::
        tokRun [] [] false none [] :=
  c7_fence_opacity [] (str "```js") [str "# H"] (str "```") []
    (by decide) (by decide) (by decide)

/-- C8: a heading token at boundary level closes the current section and
starts a new one carrying that heading as its attribute and first member;
any non-boundary token (including deeper headings) is appended to the
current section without starting a new one; and a nonempty run of
non-boundary tokens before the first boundary heading accumulates into an
initial headingless section. -/
theorem c8_segment_boundary (d lv : Nat) (tx : Str) (p : Part)
    (pre rest : List Part) (cur : Option Segment)
    (hlv : lv ≤ d) (hp : isBoundary d p = false)
    (hpre : pre ≠ []) (hpre2 : ∀ q ∈ pre, isBoundary d q = false) :
    segRun d (Part.heading lv tx :: rest) cur =
      emitCur cur ++
        segRun d rest (some { heading := some (lv, tx), parts := [Part.heading lv tx] }) ∧
    segRun d (p :: rest) cur = segRun d rest (some (appendCur cur p)) ∧
    segRun d (pre ++ rest) none = segRun d rest (some { heading := none, parts := pre }) := by
  refine ⟨by simp [segRun, hlv, startSeg], segRun_step_nonboundary d p rest cur hp, ?_⟩
  · cases pre with
    | nil => exact absurd rfl hpre
    | cons q pre' =>
      have hq0 : isBoundary d q = false := hpre2 q (by simp)
      have hrest : ∀ x ∈ pre', isBoundary d x = false := fun x hx => hpre2 x (by simp [hx])
      rw [List.cons_append, segRun_step_nonboundary d q _ _ hq0, appendCur_none,
        segRun_pre d pre' rest [q] hrest]
      simp

/-- Witness for C8 at a concrete boundary heading, text token and
one-token prefix. -/
theorem c8_segment_boundary_witness :
    segRun 2 ([Part.text (str "x")] ++ []) none =
      segRun 2 [] (some { heading := none, parts := [Part.text (str "x")] }) :=
  (c8_segment_boundary 2 1 (str "A") (Part.text (str "x"))
    [Part.text (str "x")] [] none (by decide) (by decide) (by decide)
    (by decide)).2.2

/-- C9: no section exposed by the segmenter has an empty member list, and
the exposed sections are, in order, a sublist of the sections built by the
loop — empty ones are dropped, the order of the rest is preserved. -/
theorem c9_no_empty_sections (parts : List Part) (d : Nat) :
    ((toSegments parts d).all fun s => !s.parts.isEmpty) = true ∧
    List.Sublist (toSegments parts d) (segRun d parts none) := by
  constructor
  · rw [List.all_eq_true]
    intro s hs
    exact (List.mem_filter.mp hs).2
  · exact List.filter_sublist _

/-- C10: every section produced by the segmenter satisfies the heading
invariant: a section with a heading attribute has the matching heading
token as its first member, and a headingless section contains no heading
token of boundary level. -/
theorem c10_heading_invariant (parts : List Part) (d : Nat) :
    ((toSegments parts d).all fun s => headInvariant d s) = true := by
  rw [List.all_eq_true]
  intro s hs
  exact segRun_invariant d parts none (by simp [emitCur]) s (List.mem_filter.mp hs).1

end Sepmd
